import Mathlib

/-!
Shallow embedding of `qsim/simulator.py` (class `Simulator`).

Numeric values are modelled by `ℚ` (the Python code computes with IEEE
floats; all claims under study are about the structure of the computation,
which is identical over exact rationals).  Numpy arrays are modelled by
nested lists: a 1-d array is a `Vec`, a 2-d array a `Mat` (axes: time step,
control channel), a 3-d array a `Tensor3` (axes: time, cost component,
control channel).

The external collaborators (solvers, cost functions, transfer and amplitude
functions) are modelled at their interface boundary: binding a pulse to a
solver followed by querying a cost function is modelled by applying the
cost function's `costs` (resp. `grad`) field to the pulse.  A Python
exception raised by a collaborator is modelled by `Except.error`;
wall-clock durations recorded in the statistics are modelled by `Unit`
(their list structure is what the claims are about, their float values are
not representable exactly).  Methods that mutate `self.stats` in place are
modelled as returning the result value (or the propagated exception)
paired with the post-call object state.
-/

abbrev Vec := List ℚ
abbrev Mat := List (List ℚ)
abbrev Tensor3 := List (List (List ℚ))

/-- Model of `qsim.stats.OptimizationStatistics`: two append-only
collections of per-call timing lists (one inner list per cost function). -/
structure OptimizationStatistics where
  cost_func_eval_times : List (List Unit)
  grad_func_eval_times : List (List Unit)
deriving DecidableEq, Repr

/-- Model of a transfer function: callable (forward evaluation of a pulse)
plus a gradient chain-rule operator. -/
structure TransferFunction where
  forward : Mat → Mat
  gradient_chain_rule : Tensor3 → Tensor3

/-- Model of an amplitude function: its gradient chain-rule operator takes
the gradient by control amplitudes and, as auxiliary input, the transfer
function's forward evaluation of the pulse. -/
structure AmplitudeFunction where
  gradient_chain_rule : Tensor3 → Mat → Tensor3

/-- Model of a `Solver` (time slot computer), holding the two parameter
maps used for chain-rule propagation. -/
structure Solver where
  transfer_function : TransferFunction
  amplitude_function : AmplitudeFunction

/-- A cost value returned by `cost_fktn.costs()`: a numpy scalar (0-d, no
`__len__`) or a 1-d array (has `__len__`). -/
inductive CostVal where
  | scalar : ℚ → CostVal
  | vector : Vec → CostVal
deriving DecidableEq, Repr

/-- A raw gradient returned by `cost_fktn.grad()`: shape
(num_times, num_ctrl) for a scalar measure or
(num_times, k, num_ctrl) for a k-component measure. -/
inductive GradVal where
  | twoAxis : Mat → GradVal
  | threeAxis : Tensor3 → GradVal
deriving DecidableEq, Repr

/-- Model of a `CostFunction` (Quality Measure) at its interface boundary:
`costs`/`grad` are evaluated on the pulse most recently bound to its
solver, `index` is the ordered list of cost names, `t_slot_comp` exposes
the parameter maps. -/
structure CostFunction where
  t_slot_comp : Solver
  costs : Mat → Except String CostVal
  grad : Mat → GradVal
  index : List String

instance : Inhabited CostFunction :=
  ⟨{ t_slot_comp :=
      { transfer_function := { forward := id, gradient_chain_rule := id },
        amplitude_function := { gradient_chain_rule := fun j _ => j } },
     costs := fun _ => Except.error "",
     grad := fun _ => GradVal.twoAxis [],
     index := [] }⟩

/-- Model of the `Simulator` class state. -/
structure Simulator where
  tslot_comps : List Solver
  cost_fktns : List CostFunction
  stats : Option OptimizationStatistics
  numeric_jacobian : Bool
  cost_fktn_weights : Option (List ℚ)
  _pulse : Option Mat
  _times : Option Vec
  _num_times : Option Nat
  _num_ctrl : Option Nat

/-- Model of `Simulator.__init__`.  The `ValueError` message is the
concatenation of the two adjacent Python string literals (note the
missing space: "foreach"). -/
def Simulator.init (solvers : List Solver) (cost_fktns : List CostFunction)
    (pulse : Option Mat) (num_ctrl : Option Nat) (times : Option Vec)
    (num_times : Option Nat) (record_performance_statistics : Bool)
    (numeric_jacobian : Bool) (cost_fktn_weights : Option (List ℚ)) :
    Except String Simulator :=
  let base : Simulator :=
    { tslot_comps := solvers
      cost_fktns := cost_fktns
      stats :=
        if record_performance_statistics then
          some { cost_func_eval_times := [], grad_func_eval_times := [] }
        else none
      numeric_jacobian := numeric_jacobian
      cost_fktn_weights := cost_fktn_weights
      _pulse := pulse
      _times := times
      _num_times := num_times
      _num_ctrl := num_ctrl }
  match cost_fktn_weights with
  | none => Except.ok base
  | some w =>
      if w.length = 0 then Except.ok { base with cost_fktn_weights := none }
      else if cost_fktns.length = w.length then Except.ok base
      else Except.error
        "A cost function weight must be specified foreach cost function or for none at all."

/-- Model of the `pulse` property setter.  Faithful to the source: when the
new pulse is not `None` it reads `self._pulse.shape` — the shape of the
OLD pulse — before overwriting `self._pulse` (an `AttributeError` results
when the old pulse is `None`). -/
def Simulator.setPulse (sim : Simulator) (new_pulse : Option Mat) :
    Except String Simulator :=
  match new_pulse with
  | none => Except.ok { sim with _pulse := none }
  | some _ =>
      match sim._pulse with
      | none => Except.error "AttributeError: 'NoneType' object has no attribute 'shape'"
      | some old =>
          Except.ok { sim with
            _num_times := some old.length
            _num_ctrl := some (old.headD []).length
            _pulse := new_pulse }

/-- Model of the `cost_indices` property: the per-measure index lists
accumulated with `+=` in list order. -/
def Simulator.cost_indices (sim : Simulator) : List String :=
  sim.cost_fktns.foldl (fun acc f => acc ++ f.index) []

/-- In-place multiplication `cost *= weight` on a scalar or 1-d array. -/
def CostVal.scale (c : CostVal) (w : ℚ) : CostVal :=
  match c with
  | CostVal.scalar q => CostVal.scalar (q * w)
  | CostVal.vector v => CostVal.vector (v.map (· * w))

/-- Normalisation of a cost to a 1-d array: a scalar is `reshape(1)`-ed
into a length-1 vector; a vector is appended as is. -/
def CostVal.toVec : CostVal → Vec
  | CostVal.scalar q => [q]
  | CostVal.vector v => v

/-- The weight application step of the cost/gradient loops:
`if self.cost_fktn_weights is not None: cost *= self.cost_fktn_weights[i]`. -/
def applyWeight (weights : Option (List ℚ)) (i : Nat) (c : CostVal) : CostVal :=
  match weights with
  | none => c
  | some w => c.scale (w.getD i 0)

/-- The resolution `if pulse is None: pulse = self.pulse` shared by the
evaluation operations. -/
def Simulator.resolvePulse (sim : Simulator) (pulseArg : Option Mat) : Option Mat :=
  match pulseArg with
  | some p => some p
  | none => sim._pulse

/-- The loop body of `wrapped_cost_functions` in the statistics-enabled
branch, returning the list of per-measure normalised cost vectors together
with the timing entry built up for this call.  On the first failing
`costs()` query the exception propagates; durations appended before the
failure remain in the entry (the duration of the failing measure is not
appended, its `t_end` is never reached). -/
def costsLoopStats (weights : Option (List ℚ)) (pulse : Mat) :
    Nat → List CostFunction → (Except String (List Vec)) × List Unit
  | _, [] => (Except.ok [], [])
  | i, f :: rest =>
      match f.costs pulse with
      | Except.error e => (Except.error e, [])
      | Except.ok c =>
          match costsLoopStats weights pulse (i + 1) rest with
          | (Except.error e, durs) => (Except.error e, () :: durs)
          | (Except.ok vs, durs) =>
              (Except.ok ((applyWeight weights i c).toVec :: vs), () :: durs)

/-- The loop body of `wrapped_cost_functions` in the statistics-disabled
branch. -/
def costsLoopNoStats (weights : Option (List ℚ)) (pulse : Mat) :
    Nat → List CostFunction → Except String (List Vec)
  | _, [] => Except.ok []
  | i, f :: rest =>
      match f.costs pulse with
      | Except.error e => Except.error e
      | Except.ok c =>
          match costsLoopNoStats weights pulse (i + 1) rest with
          | Except.error e => Except.error e
          | Except.ok vs => Except.ok ((applyWeight weights i c).toVec :: vs)

/-- Model of `np.concatenate(costs, axis=0)`: concatenating an empty list
of arrays raises a `ValueError`. -/
def concatOrError (vs : List Vec) : Except String Vec :=
  match vs with
  | [] => Except.error "ValueError: need at least one array to concatenate"
  | v :: rest => Except.ok ((v :: rest : List Vec)).flatten

/-- The in-place append `self.stats.cost_func_eval_times.append(...)` of a
completed (or aborted) per-call timing entry. -/
def statsAppendCost (st : OptimizationStatistics) (durs : List Unit) :
    OptimizationStatistics :=
  { st with cost_func_eval_times := st.cost_func_eval_times ++ [durs] }

/-- The in-place append to `self.stats.grad_func_eval_times`. -/
def statsAppendGrad (st : OptimizationStatistics) (durs : List Unit) :
    OptimizationStatistics :=
  { st with grad_func_eval_times := st.grad_func_eval_times ++ [durs] }

/-- The body of `Simulator.wrapped_cost_functions` on a resolved pulse:
the per-measure cost loop (with or without timing instrumentation,
depending on whether `self.stats` is set), followed by
`np.concatenate(costs, axis=0)`.  The second component is the post-call
object state: the timing entry for this call is appended to the
statistics even when an exception aborts the loop (the entry then holds
one duration per measure completed before the failure). -/
def Simulator.wrapped_cost_functions_pulse (sim : Simulator) (pulse : Mat) :
    (Except String Vec) × Simulator :=
  match sim.stats with
  | some st =>
      ( (match (costsLoopStats sim.cost_fktn_weights pulse 0 sim.cost_fktns).1 with
         | Except.error e => Except.error e
         | Except.ok vs => concatOrError vs),
        { sim with stats := some (statsAppendCost st
            (costsLoopStats sim.cost_fktn_weights pulse 0 sim.cost_fktns).2) } )
  | none =>
      ( (match costsLoopNoStats sim.cost_fktn_weights pulse 0 sim.cost_fktns with
         | Except.error e => Except.error e
         | Except.ok vs => concatOrError vs),
        sim )

/-- Model of `Simulator.wrapped_cost_functions` (the cost-evaluation
operation `evaluate_costs` of the specification). -/
def Simulator.wrapped_cost_functions (sim : Simulator) (pulseArg : Option Mat) :
    (Except String Vec) × Simulator :=
  match sim.resolvePulse pulseArg with
  | none => (Except.error "TypeError: pulse is None", sim)
  | some pulse => sim.wrapped_cost_functions_pulse pulse

/-- In-place multiplication `jac_u *= weight` on a 2- or 3-axis gradient. -/
def GradVal.scale (g : GradVal) (w : ℚ) : GradVal :=
  match g with
  | GradVal.twoAxis m => GradVal.twoAxis (m.map (fun row => row.map (· * w)))
  | GradVal.threeAxis t =>
      GradVal.threeAxis (t.map (fun m => m.map (fun row => row.map (· * w))))

/-- The weight application step of the gradient loop. -/
def applyGradWeight (weights : Option (List ℚ)) (i : Nat) (g : GradVal) : GradVal :=
  match weights with
  | none => g
  | some w => g.scale (w.getD i 0)

/-- Shape normalisation in the gradient loop: a two-axis gradient of a
scalar cost function gets an extra cost-component axis of size one
inserted at axis 1 (`np.expand_dims(jac_u, axis=1)`). -/
def GradVal.expand : GradVal → Tensor3
  | GradVal.twoAxis m => m.map (fun row => [row])
  | GradVal.threeAxis t => t

/-- The per-measure body of `wrapped_jac_function`: fetch the raw
gradient, apply the weight, normalise the shape, then push the gradient
through the amplitude function's chain rule (with the transfer function's
forward evaluation of the pulse as auxiliary input) and afterwards through
the transfer function's chain rule. -/
def measureJacobian (weights : Option (List ℚ)) (pulse : Mat) (i : Nat)
    (f : CostFunction) : Tensor3 :=
  f.t_slot_comp.transfer_function.gradient_chain_rule
    (f.t_slot_comp.amplitude_function.gradient_chain_rule
      (applyGradWeight weights i (f.grad pulse)).expand
      (f.t_slot_comp.transfer_function.forward pulse))

/-- The gradient loop of `wrapped_jac_function` over the cost functions in
list order. -/
def jacLoop (weights : Option (List ℚ)) (pulse : Mat) :
    Nat → List CostFunction → List Tensor3
  | _, [] => []
  | i, f :: rest => measureJacobian weights pulse i f :: jacLoop weights pulse (i + 1) rest

/-- Model of `np.concatenate(jacobians, axis=1)` on a nonempty list of
3-axis tensors agreeing on axes 0 and 2. -/
def concatAxis1 (ts : List Tensor3) : Tensor3 :=
  match ts with
  | [] => []
  | t0 :: _ => (List.range t0.length).map
      (fun i => (ts.map (fun t => t.getD i [])).flatten)

/-- The body of `Simulator.wrapped_jac_function` on a resolved pulse in
analytic mode: the per-measure chain-rule loop followed by
`np.concatenate(jacobians, axis=1)`.  The gradient call of every measure
succeeds at this interface, so the appended timing entry holds one
duration per measure. -/
def Simulator.wrapped_jac_function_pulse (sim : Simulator) (pulse : Mat) :
    (Except String Tensor3) × Simulator :=
  ( (match jacLoop sim.cost_fktn_weights pulse 0 sim.cost_fktns with
     | [] => Except.error "ValueError: need at least one array to concatenate"
     | t :: ts => Except.ok (concatAxis1 (t :: ts))),
    match sim.stats with
    | some st =>
        { sim with stats := some (statsAppendGrad st
            (List.replicate sim.cost_fktns.length ())) }
    | none => sim )

/-- Entry-wise subtraction of 1-d arrays of equal length. -/
def vecSub (a b : Vec) : Vec := List.zipWith (· - ·) a b

/-- Entry-wise addition of 2-d arrays of equal shape. -/
def matAdd (a b : Mat) : Mat := List.zipWith (List.zipWith (· + ·)) a b

/-- Entry-wise subtraction of 2-d arrays of equal shape. -/
def matSub (a b : Mat) : Mat := List.zipWith (List.zipWith (· - ·)) a b

/-- The dense one-hot perturbation of `numeric_gradient`:
`delta = np.zeros_like(test_pulse); delta[t, c] = eps`. -/
def deltaMat (m : Mat) (t c : Nat) (eps : ℚ) : Mat :=
  (List.range m.length).map (fun i =>
    (List.range (m.getD i []).length).map (fun j =>
      if i = t ∧ j = c then eps else 0))

/-- One (time, control) iteration of the `numeric_gradient` loops: the
slice `gradients[n_time, :, n_operator]` computed by finite differences
(forward evaluation first, then — in symmetric mode only — the backward
evaluation), threading the object state through the nested cost
evaluations. -/
def columnStep (sim : Simulator) (test_pulse : Mat) (central : Vec)
    (delta_eps : ℚ) (symmetric : Bool) (t c : Nat) :
    (Except String Vec) × Simulator :=
  match sim.wrapped_cost_functions
      (some (matAdd test_pulse (deltaMat test_pulse t c delta_eps))) with
  | (Except.error e, sim1) => (Except.error e, sim1)
  | (Except.ok fwd, sim1) =>
      if symmetric then
        match sim1.wrapped_cost_functions
            (some (matSub test_pulse (deltaMat test_pulse t c delta_eps))) with
        | (Except.error e, sim2) => (Except.error e, sim2)
        | (Except.ok bck, sim2) =>
            (Except.ok ((vecSub fwd bck).map (· / (2 * delta_eps))), sim2)
      else
        (Except.ok ((vecSub fwd central).map (· / delta_eps)), sim1)

/-- The inner (`n_operator`) loop of `numeric_gradient` for a fixed time
index, collecting the per-control finite-difference slices. -/
def numericInnerLoop (test_pulse : Mat) (central : Vec) (delta_eps : ℚ)
    (symmetric : Bool) (t : Nat) :
    List Nat → Simulator → (Except String (List Vec)) × Simulator
  | [], sim => (Except.ok [], sim)
  | c :: cs, sim =>
      match columnStep sim test_pulse central delta_eps symmetric t c with
      | (Except.error e, sim1) => (Except.error e, sim1)
      | (Except.ok v, sim1) =>
          match numericInnerLoop test_pulse central delta_eps symmetric t cs sim1 with
          | (Except.error e, sim2) => (Except.error e, sim2)
          | (Except.ok vs, sim2) => (Except.ok (v :: vs), sim2)

/-- Reassembly of the slice assignments
`gradients[n_time, :, n_operator] = ...` into the time slice
`gradients[n_time]`: entry (j, c) is component j of the c-th
finite-difference slice. -/
def sliceAssemble (n_cost_funcs : Nat) (cols : List Vec) : List Vec :=
  (List.range n_cost_funcs).map (fun j => cols.map (fun col => col.getD j 0))

/-- The outer (`n_time`) loop of `numeric_gradient`. -/
def numericOuterLoop (test_pulse : Mat) (central : Vec) (delta_eps : ℚ)
    (symmetric : Bool) (n_operators n_cost_funcs : Nat) :
    List Nat → Simulator → (Except String Tensor3) × Simulator
  | [], sim => (Except.ok [], sim)
  | t :: ts, sim =>
      match numericInnerLoop test_pulse central delta_eps symmetric t
          (List.range n_operators) sim with
      | (Except.error e, sim1) => (Except.error e, sim1)
      | (Except.ok cols, sim1) =>
          match numericOuterLoop test_pulse central delta_eps symmetric
              n_operators n_cost_funcs ts sim1 with
          | (Except.error e, sim2) => (Except.error e, sim2)
          | (Except.ok slices, sim2) =>
              (Except.ok (sliceAssemble n_cost_funcs cols :: slices), sim2)

/-- Model of `Simulator.numeric_gradient`: the baseline cost vector at the
unperturbed pulse, then the doubly nested finite-difference loop over
(time, control) pairs. -/
def Simulator.numeric_gradient (sim : Simulator) (pulseArg : Option Mat)
    (delta_eps : ℚ) (symmetric : Bool) : (Except String Tensor3) × Simulator :=
  match sim.resolvePulse pulseArg with
  | none =>
      (Except.error "AttributeError: 'NoneType' object has no attribute 'shape'", sim)
  | some test_pulse =>
      match sim.wrapped_cost_functions (some test_pulse) with
      | (Except.error e, sim1) => (Except.error e, sim1)
      | (Except.ok central_costs, sim1) =>
          numericOuterLoop test_pulse central_costs delta_eps symmetric
            (test_pulse.headD []).length central_costs.length
            (List.range test_pulse.length) sim1

/-- Model of `Simulator.wrapped_jac_function` (the Jacobian-evaluation
operation `evaluate_jacobian` of the specification).  When the object is
configured for numeric-gradient mode the whole computation is delegated to
`numeric_gradient` with its default arguments `delta_eps=1e-8`,
`symmetric=False`. -/
def Simulator.wrapped_jac_function (sim : Simulator) (pulseArg : Option Mat) :
    (Except String Tensor3) × Simulator :=
  if sim.numeric_jacobian then
    sim.numeric_gradient pulseArg (1 / 100000000) false
  else
    match sim.resolvePulse pulseArg with
    | none => (Except.error "TypeError: pulse is None", sim)
    | some pulse => sim.wrapped_jac_function_pulse pulse

/-- Model of `Simulator.compare_numeric_to_analytic_gradient` up to the
final norm computations: it returns the pair of tensors
(`numeric_gradient`, the variable named `analytic_gradient` obtained from
`wrapped_jac_function`) from which the source computes
`diff_norm = np.linalg.norm(numeric - analytic)` and
`relative_difference = 2 * diff_norm / (norm(numeric) + norm(analytic))`.
The square roots inside the Frobenius norms leave `ℚ`; the squared norm is
provided separately as `frobeniusSq` and vanishes exactly when the norm
does. -/
def Simulator.compare_numeric_to_analytic_gradient (sim : Simulator)
    (pulseArg : Option Mat) (delta_eps : ℚ) (symmetric : Bool) :
    (Except String (Tensor3 × Tensor3)) × Simulator :=
  match sim.numeric_gradient pulseArg delta_eps symmetric with
  | (Except.error e, sim1) => (Except.error e, sim1)
  | (Except.ok numeric, sim1) =>
      match sim1.wrapped_jac_function pulseArg with
      | (Except.error e, sim2) => (Except.error e, sim2)
      | (Except.ok analytic, sim2) => (Except.ok (numeric, analytic), sim2)

/-- Entry-wise subtraction of 3-axis tensors of equal shape. -/
def tensorSub (a b : Tensor3) : Tensor3 := List.zipWith matSub a b

/-- Square of the Frobenius norm `np.linalg.norm` of a 3-axis tensor: the
sum of the squares of all entries.  The norm itself is its square root, so
the norm is zero exactly when this is zero. -/
def frobeniusSq (t : Tensor3) : ℚ :=
  (t.map (fun m => (m.map (fun r => (r.map (fun x => x * x)).sum)).sum)).sum

/-- Boolean success test for an `Except` result. -/
def isOkE {α : Type} (e : Except String α) : Bool :=
  match e with
  | Except.ok _ => true
  | Except.error _ => false

/-- Default-valued extraction from an `Except` result. -/
def okD {α : Type} (e : Except String α) (d : α) : α :=
  match e with
  | Except.ok v => v
  | Except.error _ => d

/-- The statistics-enabled and statistics-disabled cost loops compute the
same value (the timing entry is the only difference). -/
theorem costsLoop_fst_eq (weights : Option (List ℚ)) (pulse : Mat) :
    ∀ (fs : List CostFunction) (i : Nat),
      (costsLoopStats weights pulse i fs).1 = costsLoopNoStats weights pulse i fs := by
  intro fs
  induction fs with
  | nil => intro i; rfl
  | cons f rest ih =>
      intro i
      simp only [costsLoopStats, costsLoopNoStats]
      cases hc : f.costs pulse with
      | error e => rfl
      | ok c =>
          rw [← ih (i + 1)]
          cases h : costsLoopStats weights pulse (i + 1) rest with
          | mk r durs => cases r <;> rfl

/-- The value computed by `wrapped_cost_functions`, as a pure function of
the weights, the cost functions and the pulse. -/
def pureCostVal (weights : Option (List ℚ)) (fs : List CostFunction)
    (pulse : Mat) : Except String Vec :=
  match costsLoopNoStats weights pulse 0 fs with
  | Except.error e => Except.error e
  | Except.ok vs => concatOrError vs

/-- The result value of `wrapped_cost_functions` on a resolved pulse
depends only on the weights, the cost functions and the pulse — not on
the statistics state. -/
theorem wcfp_fst (sim : Simulator) (pulse : Mat) :
    (sim.wrapped_cost_functions_pulse pulse).1 =
      pureCostVal sim.cost_fktn_weights sim.cost_fktns pulse := by
  unfold Simulator.wrapped_cost_functions_pulse pureCostVal
  cases hst : sim.stats with
  | none => rfl
  | some st => rw [costsLoop_fst_eq sim.cost_fktn_weights pulse sim.cost_fktns 0]

/-- `wrapped_cost_functions` on a resolved pulse mutates only the `stats`
field of the object. -/
theorem wcfp_snd (sim : Simulator) (pulse : Mat) :
    ∃ st, (sim.wrapped_cost_functions_pulse pulse).2 = { sim with stats := st } := by
  unfold Simulator.wrapped_cost_functions_pulse
  cases hst : sim.stats with
  | none => exact ⟨sim.stats, rfl⟩
  | some st =>
      exact ⟨some (statsAppendCost st
        (costsLoopStats sim.cost_fktn_weights pulse 0 sim.cost_fktns).2), rfl⟩

/-- The result value of `wrapped_cost_functions`, including the pulse
resolution, as a pure function of the object's configuration. -/
theorem wcf_fst (sim : Simulator) (p : Option Mat) :
    (sim.wrapped_cost_functions p).1 =
      match sim.resolvePulse p with
      | none => Except.error "TypeError: pulse is None"
      | some pulse => pureCostVal sim.cost_fktn_weights sim.cost_fktns pulse := by
  unfold Simulator.wrapped_cost_functions
  cases hp : sim.resolvePulse p with
  | none => rfl
  | some pulse => exact wcfp_fst sim pulse

/-- `wrapped_cost_functions` mutates only the `stats` field. -/
theorem wcf_snd (sim : Simulator) (p : Option Mat) :
    ∃ st, (sim.wrapped_cost_functions p).2 = { sim with stats := st } := by
  unfold Simulator.wrapped_cost_functions
  cases hp : sim.resolvePulse p with
  | none => exact ⟨sim.stats, rfl⟩
  | some pulse => exact wcfp_snd sim pulse

/-- C10: for every Orchestrator configuration, pulse argument, set of
Quality Measures and Weights, the cost vector (or propagated exception)
returned by `wrapped_cost_functions` is identical whether the
performance-statistics recorder is present or absent: the
statistics-enabled and statistics-disabled code paths are equivalent up to
the timing side effect. -/
theorem C10_cost_value_stats_independent (sim : Simulator)
    (st : OptimizationStatistics) (p : Option Mat) :
    (({ sim with stats := some st }).wrapped_cost_functions p).1 =
      (({ sim with stats := none }).wrapped_cost_functions p).1 := by
  rw [wcf_fst, wcf_fst]
  exact rfl

/-- C8: construction fails with the configuration `ValueError` exactly
when the weight sequence is non-empty and its length differs from the
number of cost functions; an empty weight sequence is normalised to `None`
and construction then returns the same object as construction with no
weights; construction with no weights never fails. -/
theorem C8_weights_validation (solvers : List Solver) (fs : List CostFunction)
    (p : Option Mat) (nc : Option Nat) (ts : Option Vec) (nt : Option Nat)
    (recordStats : Bool) (nj : Bool) (w : List ℚ) :
    ((∃ e, Simulator.init solvers fs p nc ts nt recordStats nj (some w) =
        Except.error e) ↔ (w ≠ [] ∧ fs.length ≠ w.length)) ∧
    Simulator.init solvers fs p nc ts nt recordStats nj (some []) =
      Simulator.init solvers fs p nc ts nt recordStats nj none ∧
    (∃ s, Simulator.init solvers fs p nc ts nt recordStats nj none = Except.ok s) := by
  refine ⟨⟨?_, ?_⟩, rfl, ⟨_, rfl⟩⟩
  · rintro ⟨e, he⟩
    simp only [Simulator.init] at he
    by_cases h0 : w.length = 0
    · rw [if_pos h0] at he; exact Except.noConfusion he
    · rw [if_neg h0] at he
      by_cases h1 : fs.length = w.length
      · rw [if_pos h1] at he; exact Except.noConfusion he
      · exact ⟨fun hw => h0 (by rw [hw]; rfl), h1⟩
  · rintro ⟨hne, hlen⟩
    refine ⟨"A cost function weight must be specified foreach cost function or for none at all.", ?_⟩
    simp only [Simulator.init]
    rw [if_neg (fun h0 => hne (List.length_eq_zero.mp h0)), if_neg hlen]

/-- A solver whose two parameter maps are identities (transfer forward is
the identity, both chain rules pass the gradient through unchanged). -/
def identitySolver : Solver :=
  { transfer_function := { forward := id, gradient_chain_rule := id },
    amplitude_function := { gradient_chain_rule := fun j _ => j } }

/-- A toy scalar Quality Measure: its cost is the sum of all pulse
entries (an exactly linear model), while its declared analytic gradient is
the constant `[[5]]` — deliberately different from the true derivative
`[[1]]` on a 1×1 pulse. -/
def sumCostFunction : CostFunction :=
  { t_slot_comp := identitySolver
    costs := fun p => Except.ok (CostVal.scalar p.flatten.sum)
    grad := fun _ => GradVal.twoAxis [[5]]
    index := ["A"] }

/-- A Quality Measure whose cost query always raises. -/
def boomCostFunction : CostFunction :=
  { t_slot_comp := identitySolver
    costs := fun _ => Except.error "boom"
    grad := fun _ => GradVal.twoAxis [[0]]
    index := ["B"] }

/-- A Simulator configured for numeric-gradient mode with the single toy
linear measure. -/
def simC1 : Simulator :=
  { tslot_comps := [identitySolver], cost_fktns := [sumCostFunction],
    stats := none, numeric_jacobian := true, cost_fktn_weights := none,
    _pulse := none, _times := none, _num_times := none, _num_ctrl := none }

/-- C1 (code bug): in numeric-gradient mode,
`compare_numeric_to_analytic_gradient` does NOT consult the analytic
path: the variable named `analytic_gradient` is obtained from
`wrapped_jac_function`, which delegates to `numeric_gradient` again.  On
the toy linear model both compared tensors are the finite-difference
gradient `[[[1]]]` (so the reported difference norm is 0), while the
actual analytic Jacobian — obtained with numeric mode switched off — is
`[[[5]]]`, whose difference from the numeric gradient has nonzero norm. -/
theorem C1_compare_ignores_analytic_path_in_numeric_mode :
    (simC1.compare_numeric_to_analytic_gradient (some [[0]]) 1 false).1 =
      Except.ok ([[[1]]], [[[1]]]) ∧
    (({ simC1 with numeric_jacobian := false }).wrapped_jac_function (some [[0]])).1 =
      Except.ok [[[5]]] ∧
    frobeniusSq (tensorSub [[[1]]] [[[1]]]) = 0 ∧
    ¬ frobeniusSq (tensorSub [[[1]]] [[[5]]]) = 0 := by
  refine ⟨?_, ?_, ?_, ?_⟩
  · norm_num [Simulator.compare_numeric_to_analytic_gradient, Simulator.numeric_gradient,
      Simulator.resolvePulse, Simulator.wrapped_cost_functions,
      Simulator.wrapped_cost_functions_pulse, simC1, sumCostFunction, identitySolver,
      costsLoopNoStats, concatOrError, applyWeight, CostVal.toVec,
      numericOuterLoop, numericInnerLoop, columnStep, matAdd, matSub, deltaMat, vecSub,
      sliceAssemble, Simulator.wrapped_jac_function, List.range_succ]
  · norm_num [Simulator.wrapped_jac_function, simC1, Simulator.resolvePulse,
      Simulator.wrapped_jac_function_pulse, jacLoop, measureJacobian, applyGradWeight,
      GradVal.expand, sumCostFunction, identitySolver, concatAxis1, List.range_succ]
  · norm_num [frobeniusSq, tensorSub, matSub]
  · norm_num [frobeniusSq, tensorSub, matSub]

/-- A Simulator whose old pulse has shape (2, 1). -/
def simC6 : Simulator :=
  { tslot_comps := [], cost_fktns := [], stats := none,
    numeric_jacobian := false, cost_fktn_weights := none,
    _pulse := some [[0], [0]], _times := none,
    _num_times := some 2, _num_ctrl := some 1 }

/-- C6 (code bug): reassigning the pulse to a non-`None` array of shape
(3, 2) leaves `num_times`/`num_ctrl` equal to the OLD pulse's shape
(2, 1), not the new pulse's shape: the setter reads `self._pulse.shape`
before overwriting `self._pulse`. -/
theorem C6_setter_reads_old_pulse_shape :
    (simC6.setPulse (some [[1, 2], [3, 4], [5, 6]])).map
        (fun s => (s._num_times, s._num_ctrl)) = Except.ok (some 2, some 1) ∧
    ([[1, 2], [3, 4], [5, 6]] : Mat).length = 3 ∧
    (([[1, 2], [3, 4], [5, 6]] : Mat).headD []).length = 2 :=
  ⟨rfl, rfl, rfl⟩

/-- A statistics-enabled Simulator whose only Quality Measure raises. -/
def simC7 : Simulator :=
  { tslot_comps := [identitySolver], cost_fktns := [boomCostFunction],
    stats := some { cost_func_eval_times := [], grad_func_eval_times := [] },
    numeric_jacobian := false, cost_fktn_weights := none,
    _pulse := none, _times := none, _num_times := none, _num_ctrl := none }

/-- C7 counterexample: when the (first) Quality Measure's cost query
raises, the exception propagates and no cost vector is returned — but the
Statistics cost-timing collection IS left with a freshly appended, empty
timing entry for the aborted call (it grew from `[]` to `[[]]`),
contradicting the claim that no partial or empty entry is left behind. -/
theorem C7_counterexample_empty_entry_left :
    (simC7.wrapped_cost_functions (some [[0]])).1 = Except.error "boom" ∧
    (simC7.wrapped_cost_functions (some [[0]])).2.stats =
      some { cost_func_eval_times := [([] : List Unit)], grad_func_eval_times := [] } :=
  ⟨rfl, rfl⟩

/-- When the cost query of measure `f` raises after all measures before it
succeeded, the statistics-enabled loop propagates the exception and the
timing entry holds exactly one duration per completed measure. -/
theorem costsLoopStats_error (weights : Option (List ℚ)) (pulse : Mat) (e : String)
    (f : CostFunction) (post : List CostFunction)
    (hf : f.costs pulse = Except.error e) :
    ∀ (pre : List CostFunction) (i : Nat),
      (∀ g ∈ pre, isOkE (g.costs pulse) = true) →
      costsLoopStats weights pulse i (pre ++ f :: post) =
        (Except.error e, List.replicate pre.length ()) := by
  intro pre
  induction pre with
  | nil =>
      intro i _
      simp only [List.nil_append, costsLoopStats, hf]
      rfl
  | cons g rest ih =>
      intro i hpre
      have hg := hpre g (List.mem_cons_self g rest)
      cases hgc : g.costs pulse with
      | error e2 => rw [hgc] at hg; exact absurd hg (by simp [isOkE])
      | ok c =>
          have ih2 := ih (i + 1) (fun g2 hg2 => hpre g2 (List.mem_cons_of_mem g hg2))
          rw [List.cons_append]
          simp only [costsLoopStats, hgc]
          rw [ih2]
          rfl

/-- C7 (amended): if a Quality Measure's cost query raises during
`wrapped_cost_functions`, the exception propagates unchanged and no
(partial) cost vector is returned, but the Statistics cost-timing
collection IS left with a partial entry for the aborted call: one
duration per measure completed before the failure (empty when the first
measure fails). -/
theorem C7_exception_aborts_with_partial_stats_entry
    (sim : Simulator) (st : OptimizationStatistics) (p : Mat)
    (pre : List CostFunction) (f : CostFunction) (post : List CostFunction) (e : String)
    (hst : sim.stats = some st)
    (hfs : sim.cost_fktns = pre ++ f :: post)
    (hpre : ∀ g ∈ pre, isOkE (g.costs p) = true)
    (hf : f.costs p = Except.error e) :
    (sim.wrapped_cost_functions (some p)).1 = Except.error e ∧
    (sim.wrapped_cost_functions (some p)).2 =
      { sim with stats := some (statsAppendCost st (List.replicate pre.length ())) } := by
  have hloop := costsLoopStats_error sim.cost_fktn_weights p e f post hf pre 0 hpre
  have h1 : sim.wrapped_cost_functions (some p) = sim.wrapped_cost_functions_pulse p := rfl
  rw [h1]
  unfold Simulator.wrapped_cost_functions_pulse
  rw [hst, hfs, hloop]
  exact ⟨rfl, rfl⟩

/-- A statistics-enabled Simulator whose second Quality Measure raises. -/
def simC7b : Simulator := { simC7 with cost_fktns := [sumCostFunction, boomCostFunction] }

/-- Witness for the amended C7 at a concrete input: with two measures of
which the second raises, the call aborts with the exception and the new
timing entry holds exactly one duration. -/
theorem C7_witness :
    (simC7b.wrapped_cost_functions (some [[0]])).1 = Except.error "boom" ∧
    (simC7b.wrapped_cost_functions (some [[0]])).2 =
      { simC7b with stats := some (statsAppendCost
          { cost_func_eval_times := [], grad_func_eval_times := [] }
          (List.replicate 1 ())) } :=
  C7_exception_aborts_with_partial_stats_entry simC7b
    { cost_func_eval_times := [], grad_func_eval_times := [] }
    [[0]] [sumCostFunction] boomCostFunction [] "boom" rfl rfl
    (by intro g hg; rw [List.mem_singleton] at hg; subst hg; rfl) rfl

/-- The result value of `wrapped_cost_functions` on an explicitly supplied
pulse. -/
theorem wcf_fst_some (sim : Simulator) (q : Mat) :
    (sim.wrapped_cost_functions (some q)).1 =
      pureCostVal sim.cost_fktn_weights sim.cost_fktns q := by
  rw [wcf_fst]
  rfl

/-- The fold in `cost_indices`, with an arbitrary accumulator. -/
theorem cost_indices_foldl (fs : List CostFunction) :
    ∀ acc : List String,
      fs.foldl (fun a f => a ++ f.index) acc =
        acc ++ (fs.map (fun f => f.index)).flatten := by
  induction fs with
  | nil => intro acc; simp
  | cons f rest ih => intro acc; simp [ih]

/-- `cost_indices` is the concatenation of the per-measure index lists in
Quality-Measure list order. -/
theorem cost_indices_eq (sim : Simulator) :
    sim.cost_indices = (sim.cost_fktns.map (fun f => f.index)).flatten := by
  unfold Simulator.cost_indices
  rw [cost_indices_foldl]
  simp

/-- Slicing the concatenation of a list of blocks at the cumulative offset
of block `k` recovers block `k`. -/
theorem flatten_block_slice {α : Type} :
    ∀ (ls : List (List α)) (k : Nat),
      (ls.flatten.drop (((ls.take k).map List.length).sum)).take (ls.getD k []).length
        = ls.getD k [] := by
  intro ls
  induction ls with
  | nil => intro k; simp
  | cons l rest ih =>
      intro k
      cases k with
      | zero =>
          simp only [List.take_zero, List.map_nil, List.sum_nil, List.drop_zero,
            List.flatten_cons, List.getD_cons_zero]
          exact List.take_left l rest.flatten
      | succ k =>
          simp only [List.take_succ_cons, List.map_cons, List.sum_cons,
            List.flatten_cons, List.getD_cons_succ]
          rw [List.drop_append]
          exact ih k

/-- The weighted, normalised block contributed by one measure of the cost
loop. -/
def weightedBlock (weights : Option (List ℚ)) (pulse : Mat) (i : Nat)
    (f : CostFunction) : Except String Vec :=
  match f.costs pulse with
  | Except.error e => Except.error e
  | Except.ok c => Except.ok (applyWeight weights i c).toVec

/-- Characterisation of a successful cost loop: one block per measure, in
list order, the k-th block being the k-th measure's weighted, normalised
cost. -/
theorem costsLoopNoStats_ok (weights : Option (List ℚ)) (pulse : Mat) :
    ∀ (fs : List CostFunction) (i : Nat) (bs : List Vec),
      costsLoopNoStats weights pulse i fs = Except.ok bs →
      bs.length = fs.length ∧
      ∀ k, k < fs.length →
        weightedBlock weights pulse (i + k) (fs.getD k default) =
          Except.ok (bs.getD k []) := by
  intro fs
  induction fs with
  | nil =>
      intro i bs h
      simp only [costsLoopNoStats] at h
      cases h
      exact ⟨rfl, fun k hk => absurd hk (Nat.not_lt_zero k)⟩
  | cons f rest ih =>
      intro i bs h
      simp only [costsLoopNoStats] at h
      cases hc : f.costs pulse with
      | error e => rw [hc] at h; cases h
      | ok c =>
          rw [hc] at h
          cases hr : costsLoopNoStats weights pulse (i + 1) rest with
          | error e => rw [hr] at h; cases h
          | ok vs =>
              rw [hr] at h
              injection h with h
              obtain ⟨hlen, hk⟩ := ih (i + 1) vs hr
              subst h
              refine ⟨by simp only [List.length_cons, hlen], ?_⟩
              intro k hky
              cases k with
              | zero =>
                  simp only [List.getD_cons_zero]
                  unfold weightedBlock
                  rw [Nat.add_zero, hc]
              | succ k =>
                  have h2 := hk k (by simpa using hky)
                  rw [List.getD_cons_succ, List.getD_cons_succ]
                  have ha : i + (k + 1) = i + 1 + k := by omega
                  rw [ha]
                  exact h2

/-- C4: for every configured Orchestrator on which all cost queries
succeed, the total cost-index list is the concatenation, in
Quality-Measure list order, of the per-measure index lists (so its length
is the sum of the per-measure index lengths), and the returned cost
vector is the concatenation, in the same order, of the per-measure
weighted, scalar-normalised blocks; at the shared block offsets, slicing
the cost vector recovers the k-th measure's block and slicing the
cost-index list recovers the k-th measure's declared names. -/
theorem C4_cost_vector_and_indices_concatenation (sim : Simulator) (p : Mat)
    (bs : List Vec)
    (hbs : costsLoopNoStats sim.cost_fktn_weights p 0 sim.cost_fktns = Except.ok bs)
    (hne : sim.cost_fktns ≠ [])
    (hlen : ∀ k, k < sim.cost_fktns.length →
      (bs.getD k []).length = ((sim.cost_fktns.getD k default).index).length) :
    sim.cost_indices = (sim.cost_fktns.map (fun f => f.index)).flatten ∧
    sim.cost_indices.length = (sim.cost_fktns.map (fun f => f.index.length)).sum ∧
    (sim.wrapped_cost_functions (some p)).1 = Except.ok bs.flatten ∧
    bs.length = sim.cost_fktns.length ∧
    (∀ k, k < sim.cost_fktns.length →
      weightedBlock sim.cost_fktn_weights p k (sim.cost_fktns.getD k default) =
        Except.ok (bs.getD k []) ∧
      (bs.flatten.drop (((bs.take k).map List.length).sum)).take (bs.getD k []).length
        = bs.getD k [] ∧
      (sim.cost_indices.drop (((bs.take k).map List.length).sum)).take
          ((sim.cost_fktns.getD k default).index).length
        = (sim.cost_fktns.getD k default).index) := by
  obtain ⟨hblen, hbk⟩ := costsLoopNoStats_ok sim.cost_fktn_weights p sim.cost_fktns 0 bs hbs
  have hci := cost_indices_eq sim
  have hmap : bs.map List.length = sim.cost_fktns.map (fun f => f.index.length) := by
    apply List.ext_getElem (by simp [hblen])
    intro n h1 h2
    simp only [List.getElem_map]
    have h3 : n < sim.cost_fktns.length := by simpa using h2
    have h4 := hlen n h3
    rw [List.getD_eq_getElem bs [] (by simpa using h1),
      List.getD_eq_getElem _ default h3] at h4
    exact h4
  have hmm : (sim.cost_fktns.map (fun f => f.index)).map List.length =
      sim.cost_fktns.map (fun f => f.index.length) := by
    rw [List.map_map]
    rfl
  refine ⟨hci, ?_, ?_, hblen, ?_⟩
  · rw [hci, List.length_flatten, hmm]
  · rw [wcf_fst_some]
    unfold pureCostVal
    rw [hbs]
    have hbne : bs ≠ [] := by
      intro hb
      rw [hb] at hblen
      exact hne (List.eq_nil_of_length_eq_zero hblen.symm)
    obtain ⟨b0, bt, hb⟩ := List.exists_cons_of_ne_nil hbne
    subst hb
    rfl
  · intro k hk
    have hoff : ((bs.take k).map List.length).sum =
        (((sim.cost_fktns.map (fun f => f.index)).take k).map List.length).sum := by
      rw [List.map_take, List.map_take, hmap, hmm]
    have hgd : (sim.cost_fktns.map (fun f => f.index)).getD k [] =
        (sim.cost_fktns.getD k default).index := by
      rw [List.getD_eq_getElem _ [] (by simpa using hk),
        List.getD_eq_getElem _ default hk, List.getElem_map]
    refine ⟨by have h5 := hbk k hk; rwa [Nat.zero_add] at h5,
      flatten_block_slice bs k, ?_⟩
    rw [hci, hoff]
    have h6 := flatten_block_slice (sim.cost_fktns.map (fun f => f.index)) k
    rw [hgd] at h6
    exact h6

/-- Block-wise scaling of a list of cost blocks by the weights starting at
index `i`: block `k` is multiplied entry-wise by weight `i + k`. -/
def scaleBlocksFrom (w : List ℚ) : Nat → List Vec → List Vec
  | _, [] => []
  | i, b :: bs => b.map (· * w.getD i 0) :: scaleBlocksFrom w (i + 1) bs

/-- Scaling commutes with the scalar-to-vector normalisation. -/
theorem toVec_scale (c : CostVal) (x : ℚ) :
    (c.scale x).toVec = c.toVec.map (· * x) := by
  cases c <;> rfl

/-- A weighted cost loop is the unweighted loop with every measure's block
scaled by that measure's own weight. -/
theorem costsLoopNoStats_weighted (w : List ℚ) (pulse : Mat) :
    ∀ (fs : List CostFunction) (i : Nat) (bs : List Vec),
      costsLoopNoStats none pulse i fs = Except.ok bs →
      costsLoopNoStats (some w) pulse i fs = Except.ok (scaleBlocksFrom w i bs) := by
  intro fs
  induction fs with
  | nil =>
      intro i bs h
      simp only [costsLoopNoStats] at h ⊢
      cases h
      rfl
  | cons f rest ih =>
      intro i bs h
      simp only [costsLoopNoStats] at h ⊢
      cases hc : f.costs pulse with
      | error e => rw [hc] at h; cases h
      | ok c =>
          rw [hc] at h
          cases hr : costsLoopNoStats none pulse (i + 1) rest with
          | error e => rw [hr] at h; cases h
          | ok vs =>
              rw [hr] at h
              injection h with h
              rw [ih (i + 1) vs hr]
              subst h
              simp only [scaleBlocksFrom, applyWeight, toVec_scale]

/-- C9: for every pulse and every per-measure weight sequence, the cost
vector computed with the weights set equals the cost vector computed with
no weights in which each measure's block has been multiplied entry-wise by
that measure's own weight. -/
theorem C9_weights_scale_blockwise (sim : Simulator) (w : List ℚ) (p : Mat)
    (bs : List Vec)
    (hw : sim.cost_fktn_weights = some w)
    (hwl : w.length = sim.cost_fktns.length)
    (hbs : costsLoopNoStats none p 0 sim.cost_fktns = Except.ok bs)
    (hne : bs ≠ []) :
    (({ sim with cost_fktn_weights := none }).wrapped_cost_functions (some p)).1 =
      Except.ok bs.flatten ∧
    (sim.wrapped_cost_functions (some p)).1 =
      Except.ok (scaleBlocksFrom w 0 bs).flatten := by
  have hwd := costsLoopNoStats_weighted w p sim.cost_fktns 0 bs hbs
  obtain ⟨b0, bt, hb⟩ := List.exists_cons_of_ne_nil hne
  constructor
  · rw [wcf_fst_some]
    show pureCostVal none sim.cost_fktns p = _
    unfold pureCostVal
    rw [hbs]
    subst hb
    rfl
  · rw [wcf_fst_some]
    unfold pureCostVal
    rw [hw, hwd]
    subst hb
    rfl

/-- A toy scalar Quality Measure with constant cost 3 and one cost
index. -/
def constCostFunction : CostFunction :=
  { t_slot_comp := identitySolver
    costs := fun _ => Except.ok (CostVal.scalar 3)
    grad := fun _ => GradVal.twoAxis [[0]]
    index := ["A"] }

/-- A toy vector-valued Quality Measure with constant cost [1, 2] and two
cost indices. -/
def vecCostFunction : CostFunction :=
  { t_slot_comp := identitySolver
    costs := fun _ => Except.ok (CostVal.vector [1, 2])
    grad := fun _ => GradVal.threeAxis [[[0], [0]]]
    index := ["B1", "B2"] }

/-- A Simulator with one scalar and one vector-valued measure and no
weights. -/
def simC4 : Simulator :=
  { tslot_comps := [identitySolver], cost_fktns := [constCostFunction, vecCostFunction],
    stats := none, numeric_jacobian := false, cost_fktn_weights := none,
    _pulse := none, _times := none, _num_times := none, _num_ctrl := none }

/-- Witness for C4 at a concrete input: the two blocks are [3] and [1, 2],
the cost vector is their concatenation [3, 1, 2], and the index list is
["A", "B1", "B2"]. -/
theorem C4_witness :
    costsLoopNoStats simC4.cost_fktn_weights [[0]] 0 simC4.cost_fktns =
      Except.ok [[3], [1, 2]] ∧
    simC4.cost_fktns ≠ [] ∧
    (∀ k, k < simC4.cost_fktns.length →
      (([[3], [1, 2]] : List Vec).getD k []).length =
        ((simC4.cost_fktns.getD k default).index).length) ∧
    (simC4.cost_indices = (simC4.cost_fktns.map (fun f => f.index)).flatten ∧
      simC4.cost_indices.length = (simC4.cost_fktns.map (fun f => f.index.length)).sum ∧
      (simC4.wrapped_cost_functions (some [[0]])).1 =
        Except.ok ([[3], [1, 2]] : List Vec).flatten ∧
      ([[3], [1, 2]] : List Vec).length = simC4.cost_fktns.length ∧
      (∀ k, k < simC4.cost_fktns.length →
        weightedBlock simC4.cost_fktn_weights [[0]] k (simC4.cost_fktns.getD k default) =
          Except.ok (([[3], [1, 2]] : List Vec).getD k []) ∧
        (([[3], [1, 2]] : List Vec).flatten.drop
            (((([[3], [1, 2]] : List Vec).take k).map List.length).sum)).take
            (([[3], [1, 2]] : List Vec).getD k []).length
          = ([[3], [1, 2]] : List Vec).getD k [] ∧
        (simC4.cost_indices.drop
            (((([[3], [1, 2]] : List Vec).take k).map List.length).sum)).take
            ((simC4.cost_fktns.getD k default).index).length
          = (simC4.cost_fktns.getD k default).index)) :=
  ⟨rfl, List.cons_ne_nil _ _, by decide,
    C4_cost_vector_and_indices_concatenation simC4 [[0]] [[3], [1, 2]] rfl
      (List.cons_ne_nil _ _) (by decide)⟩

/-- The Simulator of `simC4` with per-measure weights [2, 3]. -/
def simC9 : Simulator := { simC4 with cost_fktn_weights := some [2, 3] }

/-- Witness for C9 at a concrete input: with raw blocks [3] and [1, 2] and
weights [2, 3], the weighted cost vector is the block-wise scaled
concatenation. -/
theorem C9_witness :
    simC9.cost_fktn_weights = some [2, 3] ∧
    ([2, 3] : List ℚ).length = simC9.cost_fktns.length ∧
    costsLoopNoStats none [[0]] 0 simC9.cost_fktns = Except.ok [[3], [1, 2]] ∧
    ([[3], [1, 2]] : List Vec) ≠ [] ∧
    ((({ simC9 with cost_fktn_weights := none }).wrapped_cost_functions (some [[0]])).1 =
        Except.ok ([[3], [1, 2]] : List Vec).flatten ∧
      (simC9.wrapped_cost_functions (some [[0]])).1 =
        Except.ok (scaleBlocksFrom [2, 3] 0 [[3], [1, 2]]).flatten) :=
  ⟨rfl, rfl, rfl, List.cons_ne_nil _ _,
    C9_weights_scale_blockwise simC9 [2, 3] [[0]] [[3], [1, 2]] rfl rfl rfl
      (List.cons_ne_nil _ _)⟩

/-- In analytic mode `wrapped_jac_function` is its body on the resolved
pulse. -/
theorem wjf_analytic (sim : Simulator) (p : Mat)
    (hnj : sim.numeric_jacobian = false) :
    sim.wrapped_jac_function (some p) = sim.wrapped_jac_function_pulse p := by
  unfold Simulator.wrapped_jac_function
  rw [hnj]
  rfl

/-- The gradient loop is the indexed map of the per-measure chain-rule
composition over the cost functions in list order. -/
theorem jacLoop_eq_map (weights : Option (List ℚ)) (pulse : Mat) :
    ∀ (fs : List CostFunction) (i : Nat),
      jacLoop weights pulse i fs =
        (List.range fs.length).map
          (fun k => measureJacobian weights pulse (i + k) (fs.getD k default)) := by
  intro fs
  induction fs with
  | nil => intro i; rfl
  | cons f rest ih =>
      intro i
      rw [List.length_cons, List.range_succ_eq_map]
      simp only [List.map_cons, List.map_map, jacLoop]
      congr 1
      rw [ih (i + 1)]
      apply List.map_congr_left
      intro k _
      simp only [Function.comp_apply, Nat.succ_eq_add_one, List.getD_cons_succ]
      have hik : i + 1 + k = i + (k + 1) := by omega
      rw [hik]

/-- C2: in analytic mode the Jacobian returned by `wrapped_jac_function`
is the axis-1 concatenation, in Quality-Measure list order, of the
per-measure gradients in which the (weighted, shape-normalised) raw
gradient is pushed FIRST through the amplitude map's chain-rule operator —
receiving the transfer map's forward evaluation of the pulse as auxiliary
input — and only AFTERWARDS through the transfer map's chain-rule
operator. -/
theorem C2_amplitude_before_transfer_chain_rule (sim : Simulator) (p : Mat)
    (hnj : sim.numeric_jacobian = false)
    (hne : sim.cost_fktns ≠ []) :
    (sim.wrapped_jac_function (some p)).1 =
      Except.ok (concatAxis1 ((List.range sim.cost_fktns.length).map (fun k =>
        (sim.cost_fktns.getD k default).t_slot_comp.transfer_function.gradient_chain_rule
          ((sim.cost_fktns.getD k default).t_slot_comp.amplitude_function.gradient_chain_rule
            (applyGradWeight sim.cost_fktn_weights k
              ((sim.cost_fktns.getD k default).grad p)).expand
            ((sim.cost_fktns.getD k default).t_slot_comp.transfer_function.forward p))))) := by
  show (sim.wrapped_jac_function (some p)).1 =
    Except.ok (concatAxis1 ((List.range sim.cost_fktns.length).map (fun k =>
      measureJacobian sim.cost_fktn_weights p k (sim.cost_fktns.getD k default))))
  rw [wjf_analytic sim p hnj]
  unfold Simulator.wrapped_jac_function_pulse
  have hj : jacLoop sim.cost_fktn_weights p 0 sim.cost_fktns =
      (List.range sim.cost_fktns.length).map
        (fun k => measureJacobian sim.cost_fktn_weights p k
          (sim.cost_fktns.getD k default)) := by
    rw [jacLoop_eq_map]
    apply List.map_congr_left
    intro k _
    rw [Nat.zero_add]
  have hmapne : (List.range sim.cost_fktns.length).map
      (fun k => measureJacobian sim.cost_fktn_weights p k
        (sim.cost_fktns.getD k default)) ≠ [] := by
    simp only [ne_eq, List.map_eq_nil_iff, List.range_eq_nil]
    intro h
    exact hne (List.eq_nil_of_length_eq_zero h)
  obtain ⟨a, t, hat⟩ := List.exists_cons_of_ne_nil hmapne
  dsimp only
  rw [hj, hat]

/-- A 3-axis tensor has shape (a, b, c): a time slices, each with b cost
components, each with c control entries. -/
def IsShape3 (T : Tensor3) (a b c : Nat) : Prop :=
  T.length = a ∧ ∀ m ∈ T, m.length = b ∧ ∀ r ∈ m, r.length = c

instance (T : Tensor3) (a b c : Nat) : Decidable (IsShape3 T a b c) := by
  unfold IsShape3
  infer_instance

/-- Indexing a map over a range below the bound. -/
theorem getD_map_range {α : Type} (F : Nat → α) (n j : Nat) (d : α) (h : j < n) :
    ((List.range n).map F).getD j d = F j := by
  rw [List.getD_eq_getElem _ _ (by simpa using h), List.getElem_map,
    List.getElem_range]

/-- Shape of `np.concatenate(..., axis=1)`: concatenating nonempty
per-measure tensors of shapes (n_t, ks j, n_c) along axis 1 yields shape
(n_t, sum ks, n_c). -/
theorem concatAxis1_shape (n_t n_c : Nat) (ts : List Tensor3) (ks : List Nat)
    (hne : ts ≠ []) (hlen : ts.length = ks.length)
    (hshape : ∀ j, j < ts.length → IsShape3 (ts.getD j []) n_t (ks.getD j 0) n_c) :
    IsShape3 (concatAxis1 ts) n_t ks.sum n_c := by
  obtain ⟨t0, rest, ht⟩ := List.exists_cons_of_ne_nil hne
  subst ht
  have h0 := hshape 0 (by simp)
  rw [List.getD_cons_zero] at h0
  constructor
  · simp [concatAxis1, h0.1]
  · intro m hm
    simp only [concatAxis1, List.mem_map, List.mem_range] at hm
    obtain ⟨i, hi, rfl⟩ := hm
    rw [h0.1] at hi
    have hview : ((t0 :: rest).map (fun t => (t.getD i []).length)) = ks := by
      apply List.ext_getElem (by simpa using hlen)
      intro j h1 h2
      simp only [List.getElem_map]
      have hj : j < (t0 :: rest).length := by simpa using h1
      have hs := hshape j hj
      rw [List.getD_eq_getElem _ [] hj] at hs
      have hilen : i < ((t0 :: rest)[j]).length := by rw [hs.1]; exact hi
      have hmem : ((t0 :: rest)[j]).getD i [] ∈ (t0 :: rest)[j] := by
        rw [List.getD_eq_getElem _ [] hilen]
        exact List.getElem_mem hilen
      rw [(hs.2 _ hmem).1]
      exact List.getD_eq_getElem ks 0 h2
    constructor
    · rw [List.length_flatten, List.map_map]
      show ((t0 :: rest).map (fun t => (t.getD i []).length)).sum = ks.sum
      rw [hview]
    · intro r hr
      rw [List.mem_flatten] at hr
      obtain ⟨l, hl, hrl⟩ := hr
      rw [List.mem_map] at hl
      obtain ⟨t, htm, rfl⟩ := hl
      rw [List.mem_iff_getElem] at htm
      obtain ⟨j, hj, rfl⟩ := htm
      have hs := hshape j (by simpa using hj)
      rw [List.getD_eq_getElem _ [] (by simpa using hj)] at hs
      have hilen : i < ((t0 :: rest)[j]).length := by rw [hs.1]; exact hi
      have hmem : ((t0 :: rest)[j]).getD i [] ∈ (t0 :: rest)[j] := by
        rw [List.getD_eq_getElem _ [] hilen]
        exact List.getElem_mem hilen
      exact (hs.2 _ hmem).2 r hrl

/-- C3: in analytic mode, under the interface contract that each measure's
chain-rule-transformed gradient has shape (num_times, k, num_ctrl) with k
the measure's own number of cost indices, `wrapped_jac_function` returns
the axis-1 concatenation of the per-measure gradients in list order, of
shape (num_times, total number of cost indices, num_ctrl); moreover every
two-axis raw gradient is normalised by inserting a cost-component axis of
size exactly one. -/
theorem C3_jacobian_shape (sim : Simulator) (p : Mat)
    (hnj : sim.numeric_jacobian = false)
    (hne : sim.cost_fktns ≠ [])
    (hshape : ∀ k, k < sim.cost_fktns.length →
      IsShape3 (measureJacobian sim.cost_fktn_weights p k (sim.cost_fktns.getD k default))
        p.length ((sim.cost_fktns.getD k default).index.length) (p.headD []).length) :
    (sim.wrapped_jac_function (some p)).1 =
      Except.ok (concatAxis1 (jacLoop sim.cost_fktn_weights p 0 sim.cost_fktns)) ∧
    IsShape3 (concatAxis1 (jacLoop sim.cost_fktn_weights p 0 sim.cost_fktns))
      p.length sim.cost_indices.length (p.headD []).length ∧
    (∀ (mm : Mat) (sl : List Vec), sl ∈ (GradVal.twoAxis mm).expand → sl.length = 1) := by
  have hj : jacLoop sim.cost_fktn_weights p 0 sim.cost_fktns =
      (List.range sim.cost_fktns.length).map
        (fun k => measureJacobian sim.cost_fktn_weights p k
          (sim.cost_fktns.getD k default)) := by
    rw [jacLoop_eq_map]
    apply List.map_congr_left
    intro k _
    rw [Nat.zero_add]
  have hjne : jacLoop sim.cost_fktn_weights p 0 sim.cost_fktns ≠ [] := by
    rw [hj]
    simp only [ne_eq, List.map_eq_nil_iff, List.range_eq_nil]
    intro h
    exact hne (List.eq_nil_of_length_eq_zero h)
  refine ⟨?_, ?_, ?_⟩
  · rw [wjf_analytic sim p hnj]
    unfold Simulator.wrapped_jac_function_pulse
    obtain ⟨a, t, hat⟩ := List.exists_cons_of_ne_nil hjne
    dsimp only
    rw [hat]
  · have hcl : sim.cost_indices.length =
        (sim.cost_fktns.map (fun f => f.index.length)).sum := by
      rw [cost_indices_eq, List.length_flatten, List.map_map]
      rfl
    rw [hcl]
    apply concatAxis1_shape p.length (p.headD []).length _
      (sim.cost_fktns.map (fun f => f.index.length)) hjne
    · rw [hj]
      simp
    · intro j hjlt
      have hjlen : j < sim.cost_fktns.length := by
        rw [hj] at hjlt
        simpa using hjlt
      rw [hj, getD_map_range _ _ _ _ hjlen]
      have hks : ((sim.cost_fktns.map (fun f => f.index.length)).getD j 0) =
          (sim.cost_fktns.getD j default).index.length := by
        rw [List.getD_eq_getElem _ 0 (by simpa using hjlen),
          List.getD_eq_getElem _ default hjlen, List.getElem_map]
      rw [hks]
      exact hshape j hjlen
  · intro mm sl hsl
    simp only [GradVal.expand, List.mem_map] at hsl
    obtain ⟨row, _, rfl⟩ := hsl
    rfl

/-- Witness for C2 at a concrete input: the analytic Jacobian of the
two-measure Simulator is the axis-1 concatenation of the per-measure
amplitude-then-transfer chain-rule compositions. -/
theorem C2_witness :
    simC4.numeric_jacobian = false ∧
    simC4.cost_fktns ≠ [] ∧
    (simC4.wrapped_jac_function (some [[0]])).1 =
      Except.ok (concatAxis1 ((List.range simC4.cost_fktns.length).map (fun k =>
        (simC4.cost_fktns.getD k default).t_slot_comp.transfer_function.gradient_chain_rule
          ((simC4.cost_fktns.getD k default).t_slot_comp.amplitude_function.gradient_chain_rule
            (applyGradWeight simC4.cost_fktn_weights k
              ((simC4.cost_fktns.getD k default).grad [[0]])).expand
            ((simC4.cost_fktns.getD k default).t_slot_comp.transfer_function.forward [[0]]))))) :=
  ⟨rfl, List.cons_ne_nil _ _,
    C2_amplitude_before_transfer_chain_rule simC4 [[0]] rfl (List.cons_ne_nil _ _)⟩

/-- Witness for C3 at a concrete input: one scalar and one vector-valued
measure on a (1, 1) pulse give a Jacobian tensor of shape (1, 3, 1), 3
being the total number of cost indices. -/
theorem C3_witness :
    simC4.numeric_jacobian = false ∧
    simC4.cost_fktns ≠ [] ∧
    (∀ k, k < simC4.cost_fktns.length →
      IsShape3 (measureJacobian simC4.cost_fktn_weights [[0]] k
          (simC4.cost_fktns.getD k default))
        ([[(0 : ℚ)]] : Mat).length ((simC4.cost_fktns.getD k default).index.length)
        (([[(0 : ℚ)]] : Mat).headD []).length) ∧
    ((simC4.wrapped_jac_function (some [[0]])).1 =
        Except.ok (concatAxis1 (jacLoop simC4.cost_fktn_weights [[0]] 0 simC4.cost_fktns)) ∧
      IsShape3 (concatAxis1 (jacLoop simC4.cost_fktn_weights [[0]] 0 simC4.cost_fktns))
        ([[(0 : ℚ)]] : Mat).length simC4.cost_indices.length
        (([[(0 : ℚ)]] : Mat).headD []).length ∧
      (∀ (mm : Mat) (sl : List Vec), sl ∈ (GradVal.twoAxis mm).expand → sl.length = 1)) :=
  ⟨rfl, List.cons_ne_nil _ _, by decide,
    C3_jacobian_shape simC4 [[0]] rfl (List.cons_ne_nil _ _) (by decide)⟩

/-- The pair returned by `wrapped_cost_functions` on an explicit pulse:
its value is pure and only the `stats` field of the object changes. -/
theorem wcf_pair (sim : Simulator) (q : Mat) :
    ∃ st, sim.wrapped_cost_functions (some q) =
      (pureCostVal sim.cost_fktn_weights sim.cost_fktns q, { sim with stats := st }) := by
  obtain ⟨st, h2⟩ := wcf_snd sim (some q)
  exact ⟨st, Prod.ext_iff.mpr ⟨wcf_fst_some sim q, h2⟩⟩

/-- Pure mirror of one (time, control) finite-difference slice of
`numeric_gradient`. -/
def columnPure (weights : Option (List ℚ)) (fs : List CostFunction) (tp : Mat)
    (central : Vec) (de : ℚ) (sym : Bool) (t c : Nat) : Except String Vec :=
  match pureCostVal weights fs (matAdd tp (deltaMat tp t c de)) with
  | Except.error e => Except.error e
  | Except.ok fwd =>
      if sym then
        match pureCostVal weights fs (matSub tp (deltaMat tp t c de)) with
        | Except.error e => Except.error e
        | Except.ok bck => Except.ok ((vecSub fwd bck).map (· / (2 * de)))
      else Except.ok ((vecSub fwd central).map (· / de))

/-- Pure mirror of the inner (control) loop of `numeric_gradient`. -/
def innerPure (weights : Option (List ℚ)) (fs : List CostFunction) (tp : Mat)
    (central : Vec) (de : ℚ) (sym : Bool) (t : Nat) :
    List Nat → Except String (List Vec)
  | [] => Except.ok []
  | c :: cs =>
      match columnPure weights fs tp central de sym t c with
      | Except.error e => Except.error e
      | Except.ok v =>
          match innerPure weights fs tp central de sym t cs with
          | Except.error e => Except.error e
          | Except.ok vs => Except.ok (v :: vs)

/-- Pure mirror of the outer (time) loop of `numeric_gradient`. -/
def outerPure (weights : Option (List ℚ)) (fs : List CostFunction) (tp : Mat)
    (central : Vec) (de : ℚ) (sym : Bool) (n_ops n_cost : Nat) :
    List Nat → Except String Tensor3
  | [] => Except.ok []
  | t :: ts =>
      match innerPure weights fs tp central de sym t (List.range n_ops) with
      | Except.error e => Except.error e
      | Except.ok cols =>
          match outerPure weights fs tp central de sym n_ops n_cost ts with
          | Except.error e => Except.error e
          | Except.ok slices => Except.ok (sliceAssemble n_cost cols :: slices)

/-- Pure mirror of `numeric_gradient` on an explicit pulse. -/
def numericPure (weights : Option (List ℚ)) (fs : List CostFunction) (tp : Mat)
    (de : ℚ) (sym : Bool) : Except String Tensor3 :=
  match pureCostVal weights fs tp with
  | Except.error e => Except.error e
  | Except.ok central =>
      outerPure weights fs tp central de sym (tp.headD []).length central.length
        (List.range tp.length)

/-- `columnStep` computes the pure slice and only mutates the `stats`
field. -/
theorem columnStep_spec (sim : Simulator) (tp : Mat) (central : Vec) (de : ℚ)
    (sym : Bool) (t c : Nat) :
    ∃ st, columnStep sim tp central de sym t c =
      (columnPure sim.cost_fktn_weights sim.cost_fktns tp central de sym t c,
        { sim with stats := st }) := by
  obtain ⟨st1, h1⟩ := wcf_pair sim (matAdd tp (deltaMat tp t c de))
  unfold columnStep columnPure
  rw [h1]
  cases hf : pureCostVal sim.cost_fktn_weights sim.cost_fktns
      (matAdd tp (deltaMat tp t c de)) with
  | error e => exact ⟨st1, rfl⟩
  | ok fwd =>
      cases sym with
      | false => exact ⟨st1, rfl⟩
      | true =>
          dsimp only
          obtain ⟨st2, h2⟩ := wcf_pair { sim with stats := st1 }
            (matSub tp (deltaMat tp t c de))
          rw [h2]
          dsimp only at h2 ⊢
          cases hb : pureCostVal sim.cost_fktn_weights sim.cost_fktns
              (matSub tp (deltaMat tp t c de)) with
          | error e => exact ⟨st2, rfl⟩
          | ok bck => exact ⟨st2, rfl⟩

/-- The inner loop computes the pure slices and only mutates `stats`. -/
theorem numericInnerLoop_spec (tp : Mat) (central : Vec) (de : ℚ) (sym : Bool)
    (t : Nat) :
    ∀ (cs : List Nat) (sim : Simulator),
      ∃ st, numericInnerLoop tp central de sym t cs sim =
        (innerPure sim.cost_fktn_weights sim.cost_fktns tp central de sym t cs,
          { sim with stats := st }) := by
  intro cs
  induction cs with
  | nil => intro sim; exact ⟨sim.stats, rfl⟩
  | cons c cs ih =>
      intro sim
      obtain ⟨st1, h1⟩ := columnStep_spec sim tp central de sym t c
      unfold numericInnerLoop innerPure
      rw [h1]
      cases hcp : columnPure sim.cost_fktn_weights sim.cost_fktns tp central de sym t c with
      | error e => exact ⟨st1, rfl⟩
      | ok v =>
          dsimp only
          obtain ⟨st2, h2⟩ := ih { sim with stats := st1 }
          rw [h2]
          dsimp only at h2 ⊢
          cases hrest : innerPure sim.cost_fktn_weights sim.cost_fktns tp central de sym t cs with
          | error e => exact ⟨st2, rfl⟩
          | ok vs => exact ⟨st2, rfl⟩

/-- The outer loop computes the pure tensor and only mutates `stats`. -/
theorem numericOuterLoop_spec (tp : Mat) (central : Vec) (de : ℚ) (sym : Bool)
    (n_ops n_cost : Nat) :
    ∀ (tsl : List Nat) (sim : Simulator),
      ∃ st, numericOuterLoop tp central de sym n_ops n_cost tsl sim =
        (outerPure sim.cost_fktn_weights sim.cost_fktns tp central de sym n_ops n_cost tsl,
          { sim with stats := st }) := by
  intro tsl
  induction tsl with
  | nil => intro sim; exact ⟨sim.stats, rfl⟩
  | cons t ts ih =>
      intro sim
      obtain ⟨st1, h1⟩ := numericInnerLoop_spec tp central de sym t (List.range n_ops) sim
      unfold numericOuterLoop outerPure
      rw [h1]
      cases hin : innerPure sim.cost_fktn_weights sim.cost_fktns tp central de sym t
          (List.range n_ops) with
      | error e => exact ⟨st1, rfl⟩
      | ok cols =>
          dsimp only
          obtain ⟨st2, h2⟩ := ih { sim with stats := st1 }
          rw [h2]
          dsimp only at h2 ⊢
          cases hrest : outerPure sim.cost_fktn_weights sim.cost_fktns tp central de sym
              n_ops n_cost ts with
          | error e => exact ⟨st2, rfl⟩
          | ok slices => exact ⟨st2, rfl⟩

/-- `numeric_gradient` computes the pure tensor and only mutates
`stats`. -/
theorem numeric_gradient_spec (sim : Simulator) (tp : Mat) (de : ℚ) (sym : Bool) :
    ∃ st, sim.numeric_gradient (some tp) de sym =
      (numericPure sim.cost_fktn_weights sim.cost_fktns tp de sym,
        { sim with stats := st }) := by
  obtain ⟨st1, h1⟩ := wcf_pair sim tp
  unfold Simulator.numeric_gradient numericPure
  dsimp only [Simulator.resolvePulse]
  rw [h1]
  cases hc : pureCostVal sim.cost_fktn_weights sim.cost_fktns tp with
  | error e => exact ⟨st1, rfl⟩
  | ok central =>
      dsimp only
      obtain ⟨st2, h2⟩ := numericOuterLoop_spec tp central de sym
        ((tp.headD []).length) central.length (List.range tp.length)
        { sim with stats := st1 }
      rw [h2]
      dsimp only at h2 ⊢
      exact ⟨st2, rfl⟩

/-- When every column succeeds, the inner loop returns exactly the list of
column values. -/
theorem innerPure_ok (weights : Option (List ℚ)) (fs : List CostFunction)
    (tp : Mat) (central : Vec) (de : ℚ) (sym : Bool) (t : Nat) :
    ∀ cs : List Nat,
      (∀ c ∈ cs, isOkE (columnPure weights fs tp central de sym t c) = true) →
      innerPure weights fs tp central de sym t cs =
        Except.ok (cs.map (fun c => okD (columnPure weights fs tp central de sym t c) [])) := by
  intro cs
  induction cs with
  | nil => intro _; rfl
  | cons c rest ih =>
      intro hall
      have hc := hall c (List.mem_cons_self c rest)
      simp only [innerPure, List.map_cons]
      cases hcp : columnPure weights fs tp central de sym t c with
      | error e => rw [hcp] at hc; exact absurd hc (by simp [isOkE])
      | ok v =>
          rw [ih (fun c2 h2 => hall c2 (List.mem_cons_of_mem c h2))]
          rfl

/-- When every column succeeds, the outer loop returns exactly the
assembled time slices. -/
theorem outerPure_ok (weights : Option (List ℚ)) (fs : List CostFunction)
    (tp : Mat) (central : Vec) (de : ℚ) (sym : Bool) (n_ops n_cost : Nat) :
    ∀ tsl : List Nat,
      (∀ t ∈ tsl, ∀ c ∈ List.range n_ops,
        isOkE (columnPure weights fs tp central de sym t c) = true) →
      outerPure weights fs tp central de sym n_ops n_cost tsl =
        Except.ok (tsl.map (fun t => sliceAssemble n_cost
          ((List.range n_ops).map
            (fun c => okD (columnPure weights fs tp central de sym t c) [])))) := by
  intro tsl
  induction tsl with
  | nil => intro _; rfl
  | cons t ts ih =>
      intro hall
      simp only [outerPure, List.map_cons]
      rw [innerPure_ok weights fs tp central de sym t (List.range n_ops)
        (hall t (List.mem_cons_self t ts))]
      rw [ih (fun t2 h2 => hall t2 (List.mem_cons_of_mem t h2))]

/-- Entry of a zip below both lengths. -/
theorem getD_zipWith {α β γ : Type} (f : α → β → γ) (a : List α) (b : List β)
    (i : Nat) (d1 : α) (d2 : β) (d3 : γ) (ha : i < a.length) (hb : i < b.length) :
    (List.zipWith f a b).getD i d3 = f (a.getD i d1) (b.getD i d2) := by
  rw [List.getD_eq_getElem _ d3 (by rw [List.length_zipWith]; omega),
    List.getElem_zipWith, List.getD_eq_getElem a d1 ha, List.getD_eq_getElem b d2 hb]

/-- The one-hot perturbation matrix has the pulse's shape. -/
theorem deltaMat_length (tp : Mat) (t c : Nat) (de : ℚ) :
    (deltaMat tp t c de).length = tp.length := by
  simp [deltaMat]

/-- Rows of the one-hot perturbation matrix match the pulse's rows. -/
theorem deltaMat_row_length (tp : Mat) (t c : Nat) (de : ℚ) (i : Nat)
    (hi : i < tp.length) :
    ((deltaMat tp t c de).getD i []).length = (tp.getD i []).length := by
  unfold deltaMat
  rw [getD_map_range _ _ _ _ hi]
  simp

/-- The one-hot perturbation is `delta_eps` at (t, c) and zero
elsewhere. -/
theorem deltaMat_getD (tp : Mat) (t c : Nat) (de : ℚ) (i j : Nat)
    (hi : i < tp.length) (hj : j < (tp.getD i []).length) :
    ((deltaMat tp t c de).getD i []).getD j 0 =
      if i = t ∧ j = c then de else 0 := by
  unfold deltaMat
  rw [getD_map_range _ _ _ _ hi, getD_map_range _ _ _ _ hj]

/-- C5: `numeric_gradient` perturbs exactly one pulse entry per (time,
control) pair by `delta_eps` (the perturbed pulse differs from the pulse
only at that entry, by ±delta_eps); when all cost evaluations succeed it
returns a tensor of shape (num_times, len(baseline cost vector),
num_ctrl) whose (t, j, c) entry is component j of the finite-difference
slice for (t, c); and that slice is (cost(pulse+delta) −
cost(pulse−delta)) / (2·delta_eps) in symmetric mode and (cost(pulse+delta)
− baseline) / delta_eps in forward mode, component-wise. -/
theorem C5_numeric_gradient_finite_differences (sim : Simulator) (tp : Mat)
    (de : ℚ) (sym : Bool) (f0 : Vec)
    (hca : pureCostVal sim.cost_fktn_weights sim.cost_fktns tp = Except.ok f0)
    (hsucc : ∀ t, t < tp.length → ∀ c, c < (tp.headD []).length →
      isOkE (columnPure sim.cost_fktn_weights sim.cost_fktns tp f0 de sym t c) = true) :
    (∃ G, (sim.numeric_gradient (some tp) de sym).1 = Except.ok G ∧
      IsShape3 G tp.length f0.length (tp.headD []).length ∧
      (∀ t j c, t < tp.length → j < f0.length → c < (tp.headD []).length →
        ((G.getD t []).getD j []).getD c 0 =
          (okD (columnPure sim.cost_fktn_weights sim.cost_fktns tp f0 de sym t c)
            []).getD j 0)) ∧
    (∀ t c fwd,
      pureCostVal sim.cost_fktn_weights sim.cost_fktns
          (matAdd tp (deltaMat tp t c de)) = Except.ok fwd →
      (sym = false →
        columnPure sim.cost_fktn_weights sim.cost_fktns tp f0 de sym t c =
          Except.ok ((vecSub fwd f0).map (· / de)) ∧
        ∀ j, j < fwd.length → j < f0.length →
          ((vecSub fwd f0).map (· / de)).getD j 0 =
            (fwd.getD j 0 - f0.getD j 0) / de) ∧
      (sym = true → ∀ bck,
        pureCostVal sim.cost_fktn_weights sim.cost_fktns
            (matSub tp (deltaMat tp t c de)) = Except.ok bck →
        columnPure sim.cost_fktn_weights sim.cost_fktns tp f0 de sym t c =
          Except.ok ((vecSub fwd bck).map (· / (2 * de))) ∧
        ∀ j, j < fwd.length → j < bck.length →
          ((vecSub fwd bck).map (· / (2 * de))).getD j 0 =
            (fwd.getD j 0 - bck.getD j 0) / (2 * de))) ∧
    (∀ t c i j, i < tp.length → j < (tp.getD i []).length →
      ((matAdd tp (deltaMat tp t c de)).getD i []).getD j 0 =
        (tp.getD i []).getD j 0 + (if i = t ∧ j = c then de else 0) ∧
      ((matSub tp (deltaMat tp t c de)).getD i []).getD j 0 =
        (tp.getD i []).getD j 0 - (if i = t ∧ j = c then de else 0)) := by
  obtain ⟨st, hng⟩ := numeric_gradient_spec sim tp de sym
  have h1 : (sim.numeric_gradient (some tp) de sym).1 =
      numericPure sim.cost_fktn_weights sim.cost_fktns tp de sym := by rw [hng]
  have houter := outerPure_ok sim.cost_fktn_weights sim.cost_fktns tp f0 de sym
    ((tp.headD []).length) f0.length (List.range tp.length)
    (fun t ht c hc => hsucc t (List.mem_range.mp ht) c (List.mem_range.mp hc))
  have h2 : numericPure sim.cost_fktn_weights sim.cost_fktns tp de sym =
      Except.ok ((List.range tp.length).map (fun t => sliceAssemble f0.length
        ((List.range (tp.headD []).length).map
          (fun c => okD (columnPure sim.cost_fktn_weights sim.cost_fktns tp f0 de
            sym t c) [])))) := by
    unfold numericPure
    rw [hca]
    exact houter
  refine ⟨⟨_, by rw [h1, h2], ?_, ?_⟩, ?_, ?_⟩
  · constructor
    · simp
    · intro m hm
      simp only [List.mem_map, List.mem_range] at hm
      obtain ⟨t, ht, rfl⟩ := hm
      constructor
      · simp [sliceAssemble]
      · intro r hr
        simp only [sliceAssemble, List.mem_map, List.mem_range] at hr
        obtain ⟨j, hj, rfl⟩ := hr
        simp
  · intro t j c ht hj hc
    rw [getD_map_range _ _ _ _ ht]
    unfold sliceAssemble
    rw [getD_map_range _ _ _ _ hj, List.map_map, getD_map_range _ _ _ _ hc]
    simp [Function.comp]
  · intro t c fwd hfwd
    constructor
    · intro hsf
      subst hsf
      refine ⟨by unfold columnPure; rw [hfwd]; rfl, ?_⟩
      intro j hj1 hj2
      have hlen : j < ((vecSub fwd f0).map (· / de)).length := by
        simp only [List.length_map, vecSub, List.length_zipWith]
        omega
      rw [List.getD_eq_getElem _ 0 hlen]
      simp only [vecSub] at hlen ⊢
      rw [List.getElem_map, List.getElem_zipWith,
        List.getD_eq_getElem fwd 0 hj1, List.getD_eq_getElem f0 0 hj2]
    · intro hst bck hbck
      subst hst
      refine ⟨by unfold columnPure; rw [hfwd, hbck]; rfl, ?_⟩
      intro j hj1 hj2
      have hlen : j < ((vecSub fwd bck).map (· / (2 * de))).length := by
        simp only [List.length_map, vecSub, List.length_zipWith]
        omega
      rw [List.getD_eq_getElem _ 0 hlen]
      simp only [vecSub] at hlen ⊢
      rw [List.getElem_map, List.getElem_zipWith,
        List.getD_eq_getElem fwd 0 hj1, List.getD_eq_getElem bck 0 hj2]
  · intro t c i j hi hj
    have hdl : i < (deltaMat tp t c de).length := by
      rw [deltaMat_length]; exact hi
    have hdr : j < ((deltaMat tp t c de).getD i []).length := by
      rw [deltaMat_row_length tp t c de i hi]; exact hj
    constructor
    · unfold matAdd
      rw [getD_zipWith (List.zipWith (· + ·)) tp (deltaMat tp t c de) i [] [] [] hi hdl,
        getD_zipWith (· + ·) (tp.getD i []) ((deltaMat tp t c de).getD i []) j 0 0 0 hj hdr,
        deltaMat_getD tp t c de i j hi hj]
    · unfold matSub
      rw [getD_zipWith (List.zipWith (· - ·)) tp (deltaMat tp t c de) i [] [] [] hi hdl,
        getD_zipWith (· - ·) (tp.getD i []) ((deltaMat tp t c de).getD i []) j 0 0 0 hj hdr,
        deltaMat_getD tp t c de i j hi hj]

/-- A toy scalar Quality Measure whose cost is the (0, 0) entry of the
bound pulse. -/
def projCostFunction : CostFunction :=
  { t_slot_comp := identitySolver
    costs := fun p => Except.ok (CostVal.scalar ((p.getD 0 []).getD 0 0))
    grad := fun _ => GradVal.twoAxis [[1]]
    index := ["P"] }

/-- A Simulator with the single projection measure. -/
def simC5 : Simulator :=
  { tslot_comps := [identitySolver], cost_fktns := [projCostFunction],
    stats := none, numeric_jacobian := false, cost_fktn_weights := none,
    _pulse := none, _times := none, _num_times := none, _num_ctrl := none }

/-- Witness for C5 at a concrete input: pulse [[0]], delta_eps 1, forward
mode, baseline cost vector [0]. -/
theorem C5_witness :
    pureCostVal simC5.cost_fktn_weights simC5.cost_fktns [[0]] = Except.ok [0] ∧
    (∀ t, t < ([[(0 : ℚ)]] : Mat).length → ∀ c, c < (([[(0 : ℚ)]] : Mat).headD []).length →
      isOkE (columnPure simC5.cost_fktn_weights simC5.cost_fktns [[0]] [0] 1 false t c)
        = true) ∧
    ((∃ G, (simC5.numeric_gradient (some [[0]]) 1 false).1 = Except.ok G ∧
        IsShape3 G ([[(0 : ℚ)]] : Mat).length ([(0 : ℚ)] : Vec).length
          (([[(0 : ℚ)]] : Mat).headD []).length ∧
        (∀ t j c, t < ([[(0 : ℚ)]] : Mat).length → j < ([(0 : ℚ)] : Vec).length →
          c < (([[(0 : ℚ)]] : Mat).headD []).length →
          ((G.getD t []).getD j []).getD c 0 =
            (okD (columnPure simC5.cost_fktn_weights simC5.cost_fktns [[0]] [0] 1 false t c)
              []).getD j 0)) ∧
      (∀ t c fwd,
        pureCostVal simC5.cost_fktn_weights simC5.cost_fktns
            (matAdd [[0]] (deltaMat [[0]] t c 1)) = Except.ok fwd →
        (false = false →
          columnPure simC5.cost_fktn_weights simC5.cost_fktns [[0]] [0] 1 false t c =
            Except.ok ((vecSub fwd [0]).map (· / 1)) ∧
          ∀ j, j < fwd.length → j < ([(0 : ℚ)] : Vec).length →
            ((vecSub fwd [0]).map (· / 1)).getD j 0 =
              (fwd.getD j 0 - ([(0 : ℚ)] : Vec).getD j 0) / 1) ∧
        (false = true → ∀ bck,
          pureCostVal simC5.cost_fktn_weights simC5.cost_fktns
              (matSub [[0]] (deltaMat [[0]] t c 1)) = Except.ok bck →
          columnPure simC5.cost_fktn_weights simC5.cost_fktns [[0]] [0] 1 false t c =
            Except.ok ((vecSub fwd bck).map (· / (2 * 1))) ∧
          ∀ j, j < fwd.length → j < bck.length →
            ((vecSub fwd bck).map (· / (2 * 1))).getD j 0 =
              (fwd.getD j 0 - bck.getD j 0) / (2 * 1))) ∧
      (∀ t c i j, i < ([[(0 : ℚ)]] : Mat).length → j < (([[(0 : ℚ)]] : Mat).getD i []).length →
        ((matAdd [[0]] (deltaMat [[0]] t c 1)).getD i []).getD j 0 =
          (([[(0 : ℚ)]] : Mat).getD i []).getD j 0 + (if i = t ∧ j = c then 1 else 0) ∧
        ((matSub [[0]] (deltaMat [[0]] t c 1)).getD i []).getD j 0 =
          (([[(0 : ℚ)]] : Mat).getD i []).getD j 0 - (if i = t ∧ j = c then 1 else 0))) :=
  ⟨rfl, by decide,
    C5_numeric_gradient_finite_differences simC5 [[0]] 1 false [0] rfl (by decide)⟩
